import Mathlib

/-! Formalisation of `evaluate.py` from the FaceEmotionDetection repository.

Images are abstracted by a type `α`; the network (`net` in the source) maps one
image to its unnormalised score vector, modelled over `ℚ` (the exact arithmetic
of the float tensors on the inputs we reason about).  A batch input tensor of
shape `[bs, c, h, w]` is a list of images, one of shape `[bs, ncrops, c, h, w]`
a list of per-sample crop lists.  Fallible tensor operations (the 5-way shape
unpacking, `topk` with too large a `k`, `expand_as` with mismatched batch
sizes, the final division by the sample count) are modelled with `Option`:
`none` is the python exception propagating to the caller.  The compute device
transfer (`.to(device)`) is the identity here, and the loss function
(`nn.CrossEntropyLoss()` at the single call site) stays an abstract parameter,
exactly as `evaluate` itself treats it. -/

namespace FaceEmotion

/-- One batch input tensor: rank 4 (`[bs, c, h, w]`, no crop dimension) or
rank 5 (`[bs, ncrops, c, h, w]`, multi-crop test-time augmentation). -/
inductive InTensor (α : Type) where
  | rank4 (imgs : List α)
  | rank5 (imgss : List (List α))
deriving DecidableEq

/-- Crop count read from the shape of a rank-5 tensor (`inputs.shape[1]`, line
90).  A genuine tensor has the same number of crops in every row; the head
carries it in the list model. -/
def ncropsOf {α : Type} : List (List α) → ℕ
  | [] => 0
  | cs :: _ => cs.length

/-- Elementwise sum of one group of score rows: `torch.sum(·, dim=1)` applied
to a single `[ncrops, n_classes]` slice (line 98). -/
def sumVecs : List (List ℚ) → List ℚ
  | [] => []
  | [r] => r
  | r :: rs => List.zipWith (· + ·) r (sumVecs rs)

/-- Row grouping performed by `outputs.view(bs, ncrops, -1)` (line 97): the
flat list of `bs * ncrops` score rows is split into `bs` consecutive groups of
`ncrops` rows each. -/
def viewGroups {γ : Type} (bs n : ℕ) (rows : List γ) : List (List γ) :=
  (List.range bs).map (fun i => (rows.drop (i * n)).take n)

/-- Lines 88-100 of `evaluate.py`: with `Ncrop` set, unpack the five
dimensions (raising — `none` — on a rank-4 tensor), fuse crops and batch by
`inputs.view(-1, c, h, w)` (`List.flatten`), run the net once on every crop,
regroup with `outputs.view(bs, ncrops, -1)` and divide the per-sample sum over
the crop axis by `ncrops`.  Without `Ncrop` the net runs on the batch as is; a
rank-5 tensor then raises inside the convolution stack (`none`). -/
def batchOutputs {α : Type} (ncrop : Bool) (net : α → List ℚ) :
    InTensor α → Option (List (List ℚ))
  | InTensor.rank4 imgs => if ncrop then none else some (imgs.map net)
  | InTensor.rank5 imgss =>
      if ncrop then
        some ((viewGroups imgss.length (ncropsOf imgss) (imgss.flatten.map net)).map
          (fun g => (sumVecs g).map (fun q => q / ((ncropsOf imgss : ℚ)))))
      else none

/-- Class indices of one score row sorted by decreasing score, equal scores in
increasing index order.  `row.topk(k, ..., largest=True, sorted=True)` is the
first `k` of these; `torch.max` (first maximal index) is the first one. -/
def sortedIdx (row : List ℚ) : List ℕ :=
  ((row.enum).insertionSort (fun p q => q.2 < p.2 ∨ (p.2 = q.2 ∧ p.1 ≤ q.1))).map Prod.fst

/-- Scan underlying `argmaxFirst`: `i` is the index of the next entry, `bi` and
`bv` the best index and value so far; only a strictly larger value replaces
them, so the first maximum wins. -/
def argmaxGo (i bi : ℕ) (bv : ℚ) : List ℚ → ℕ
  | [] => bi
  | x :: xs => if bv < x then argmaxGo (i + 1) i x xs else argmaxGo (i + 1) bi bv xs

/-- Index of the first maximal score of a row: one row of
`torch.max(outputs.data, 1)` (line 112). -/
def argmaxFirst : List ℚ → ℕ
  | [] => 0
  | x :: xs => argmaxGo 1 0 x xs

/-- `_, pred = output.topk(maxk, 1, True, True)` (line 28): the top-`maxk`
class indices of every row. -/
def predRows (maxk : ℕ) (outputs : List (List ℚ)) : List (List ℕ) :=
  outputs.map (fun row => (sortedIdx row).take maxk)

/-- `correct[:k].contiguous().view(-1).float().sum(0, keepdim=True)` (line 34):
across all samples, how many ranks `< k` of the top-`maxk` prediction list
equal the sample's target.  The source transposes `pred` first; summing over
the flattened boolean matrix makes the transpose a reordering of summands. -/
def correctK (pred : List (List ℕ)) (target : List ℕ) (k : ℕ) : ℕ :=
  ((pred.zip target).map
    (fun pt => ((pt.1.take k).filter (fun i => decide (i = pt.2))).length)).sum

/-- Lines 24-36, `correct_count(output, target, topk)`.  `maxk = max(topk)`;
`topk` raises when `maxk` exceeds the class dimension of a row, `expand_as`
when the target length differs from the batch size — both are the `none`
branch.  On success the result lists one correct count per requested `k`. -/
def correct_count (outputs : List (List ℚ)) (target : List ℕ) (ks : List ℕ) :
    Option (List ℕ) :=
  let maxk := ks.foldl Nat.max 0
  if outputs.length = target.length ∧ ∀ row ∈ outputs, maxk ≤ row.length then
    some (ks.map (fun k => correctK (predRows maxk outputs) target k))
  else none

/-- Accumulators of the evaluation loop (lines 76-82): running loss, sample
count, top-1/top-2 correct counts and the two label sequences. -/
structure EvalState where
  loss_tr : ℚ
  n_samples : ℕ
  correct_count1 : ℕ
  correct_count2 : ℕ
  y_pred : List ℕ
  y_gt : List ℕ

/-- Loop body, lines 102-116, once the batch outputs are known: accumulate the
batch-mean loss `loss.item()`, the two correct counts `counts[0]`/`counts[1]`
(a result list shorter than two entries would raise — the `_` fallthrough),
add `labels.size(0)` to the sample count, and append the argmax predictions
and the true labels to the output sequences. -/
def stepWithOutputs (lf : List (List ℚ) → List ℕ → ℚ) (s : EvalState)
    (outputs : List (List ℚ)) (labels : List ℕ) : Option EvalState :=
  match correct_count outputs labels [1, 2] with
  | some (c1 :: c2 :: _) =>
      some { loss_tr := s.loss_tr + lf outputs labels,
             n_samples := s.n_samples + labels.length,
             correct_count1 := s.correct_count1 + c1,
             correct_count2 := s.correct_count2 + c2,
             y_pred := s.y_pred ++ outputs.map argmaxFirst,
             y_gt := s.y_gt ++ labels }
  | _ => none

/-- One full iteration of the `for data in dataloader` loop (lines 84-116). -/
def evalStep {α : Type} (ncrop : Bool) (net : α → List ℚ)
    (lf : List (List ℚ) → List ℕ → ℚ) (s : EvalState) (b : InTensor α × List ℕ) :
    Option EvalState :=
  (batchOutputs ncrop net b.1).bind (fun outputs => stepWithOutputs lf s outputs b.2)

/-- The whole loop over the dataloader; any raised error aborts the run. -/
def evalFold {α : Type} (ncrop : Bool) (net : α → List ℚ)
    (lf : List (List ℚ) → List ℕ → ℚ) : EvalState → List (InTensor α × List ℕ) →
    Option EvalState
  | s, [] => some s
  | s, b :: rest => (evalStep ncrop net lf s b).bind (fun s₁ => evalFold ncrop net lf s₁ rest)

/-- Observable outcome of one `evaluate` call: the three aggregate numbers it
prints (lines 118-124) and the two label sequences it returns (line 130).  The
further prints — precision, recall, F1, raw confusion matrix — are library
functions of `y_gt` and `y_pred` alone. -/
structure EvalOut where
  acc1 : ℚ
  acc2 : ℚ
  loss : ℚ
  y_gt : List ℕ
  y_pred : List ℕ

/-- Lines 74-130, `evaluate(net, dataloader, loss_fn, Ncrop, device)`.  After
the loop, `acc1 = 100 * correct_count1 / n_samples` and likewise `acc2`, and
the printed loss is `loss_tr / n_samples`; with `n_samples == 0` the division
raises `ZeroDivisionError` before anything is printed or returned (`none`). -/
def evaluate {α : Type} (net : α → List ℚ) (dataloader : List (InTensor α × List ℕ))
    (lf : List (List ℚ) → List ℕ → ℚ) (ncrop : Bool) : Option EvalOut :=
  (evalFold ncrop net lf ⟨0, 0, 0, 0, [], []⟩ dataloader).bind (fun s =>
    if s.n_samples = 0 then none
    else
      some { acc1 := 100 * (s.correct_count1 : ℚ) / (s.n_samples : ℚ),
             acc2 := 100 * (s.correct_count2 : ℚ) / (s.n_samples : ℚ),
             loss := s.loss_tr / (s.n_samples : ℚ),
             y_gt := s.y_gt,
             y_pred := s.y_pred })

/-- Label set of `sklearn.confusion_matrix` when no `labels` argument is
passed (line 50): the sorted distinct values appearing in either sequence. -/
def cmLabels (y_true y_pred : List ℕ) : List ℕ :=
  ((y_true ++ y_pred).dedup).insertionSort (· ≤ ·)

/-- Raw count row of the confusion matrix for true class `c`: one entry per
column label `c'`, counting the samples with true label `c` predicted `c'`. -/
def cmRow (pairs : List (ℕ × ℕ)) (labels : List ℕ) (c : ℕ) : List ℕ :=
  labels.map (fun c₂ => (pairs.filter (fun p => decide (p.1 = c ∧ p.2 = c₂))).length)

/-- One row of `confusion_matrix(..., normalize='true')`: the raw row divided
by its own sum; a zero row stays zero (`0/0` gives NaN inside sklearn, and its
final `nan_to_num` turns the NaNs back into zeros). -/
def cmNormRow (y_true y_pred : List ℕ) (c : ℕ) : List ℚ :=
  let row := cmRow (y_true.zip y_pred) (cmLabels y_true y_pred) c
  if row.sum = 0 then row.map (fun _ => (0 : ℚ))
  else row.map (fun x : ℕ => (x : ℚ) / (row.sum : ℚ))

/-- `cm = confusion_matrix(y_true, y_pred, normalize='true')` (line 50),
modelled from sklearn's documented semantics: rows and columns indexed by the
sorted distinct labels present, each row of counts divided by its sum, NaN
rows of absent true classes zero-filled by `nan_to_num`. -/
def confusion_matrix_normalized (y_true y_pred : List ℕ) : List (List ℚ) :=
  (cmLabels y_true y_pred).map (cmNormRow y_true y_pred)

/-- Externally visible effects of the script, in program order: the `print`
of the model object, the three section headers, the metric block each
`evaluate` prints, the rendered matrix, `plt.savefig` and `plt.clf`. -/
inductive Event where
  | printModel (arch : String)
  | header (s : String)
  | metricsBlock (acc1 acc2 loss : ℚ) (y_gt y_pred : List ℕ)
  | imshow (cm : List (List ℚ)) (title : String) (label_name : List String)
  | savefig (path : String) (dpi : ℕ)
  | clearFigure
deriving DecidableEq

/-- Lines 39-71, `draw_confusion_matrix`: build the row-normalized matrix,
render it with the given title and axis labels, and save it at the given dpi
when a path is supplied.  The text overlay and colourbar only restyle the
rendered image and carry no further data. -/
def draw_confusion_matrix (label_true label_pred : List ℕ) (label_name : List String)
    (title : String) (pdf_save_path : Option String) (dpi : ℕ) : List Event :=
  Event.imshow (confusion_matrix_normalized label_true label_pred) title label_name ::
    (match pdf_save_path with
     | some p => [Event.savefig p dpi]
     | none => [])

/-- Parsed command-line configuration, lines 15-21. -/
structure Args where
  batch_size : ℤ
  seed : ℤ
  data_path : String
  checkpoint : String
  arch : String
  Ncrop : Bool

/-- The parser defaults of lines 16-21. -/
def defaultArgs : Args :=
  { batch_size := 128, seed := 0, data_path := "./fer2013.csv",
    checkpoint := "./best_checkpoint.tar", arch := "ResNet18", Ncrop := true }

/-- External collaborators of `main`: `get_model(arch)` composed with
restoring `torch.load(checkpoint)['model_state_dict']` yields the network (a
function of the two strings), `nn.CrossEntropyLoss()` is an abstract batch
loss, and `get_dataloaders(augment)` yields the train/val/test splits. -/
structure Env (α : Type) where
  loadNet : String → String → (α → List ℚ)
  loss_fn : List (List ℚ) → List ℕ → ℚ
  get_dataloaders : Bool → List (InTensor α × List ℕ) × List (InTensor α × List ℕ) ×
    List (InTensor α × List ℕ)

/-- The class-name list repeated at the three render call sites of `main`. -/
def labelNamesMain : List String := ["Angry", "Happy", "Sad", "Neutral"]

/-- Lines 132-178, `main()`: load the model, build the dataloaders with
`augment=False`, then for train, val and test in that order print the header,
run `evaluate`, render and save the confusion matrix, and clear the figure
between successive renders.  The returned flag records whether the run
finished; on a raised error the trace stops where python would. -/
def main {α : Type} (env : Env α) (args : Args) : List Event × Bool :=
  let net := env.loadNet args.arch args.checkpoint
  let dls := env.get_dataloaders false
  let pre := [Event.printModel args.arch]
  match evaluate net dls.1 env.loss_fn args.Ncrop with
  | none => (pre ++ [Event.header "Train"], false)
  | some r1 =>
    let e1 := pre ++ [Event.header "Train",
        Event.metricsBlock r1.acc1 r1.acc2 r1.loss r1.y_gt r1.y_pred] ++
      draw_confusion_matrix r1.y_gt r1.y_pred labelNamesMain
        "Confusion Matrix on Training Set" (some "Confusion Matrix on Training Set.png") 300 ++
      [Event.clearFigure]
    match evaluate net dls.2.1 env.loss_fn args.Ncrop with
    | none => (e1 ++ [Event.header "Val"], false)
    | some r2 =>
      let e2 := e1 ++ [Event.header "Val",
          Event.metricsBlock r2.acc1 r2.acc2 r2.loss r2.y_gt r2.y_pred] ++
        draw_confusion_matrix r2.y_gt r2.y_pred labelNamesMain
          "Confusion Matrix on Val Set" (some "Confusion Matrix on Val Set.png") 300 ++
        [Event.clearFigure]
      match evaluate net dls.2.2 env.loss_fn args.Ncrop with
      | none => (e2 ++ [Event.header "Test"], false)
      | some r3 =>
        (e2 ++ [Event.header "Test",
            Event.metricsBlock r3.acc1 r3.acc2 r3.loss r3.y_gt r3.y_pred] ++
          draw_confusion_matrix r3.y_gt r3.y_pred labelNamesMain
            "Confusion Matrix on Test Set" (some "Confusion Matrix on Test Set.png") 300, true)

/-- Concrete one-sample fixture used to exercise the theorems: a net over a
one-point image type scoring class 0 above class 1. -/
def tinyNet : Unit → List ℚ := fun _ => [1, 0]

/-- A single multi-crop batch with one sample, one crop, true label 0. -/
def tinyDL : List (InTensor Unit × List ℕ) := [(InTensor.rank5 [[()]], [0])]

/-- A single rank-4 (augmentation-free) batch with one sample. -/
def tinyDL4 : List (InTensor Unit × List ℕ) := [(InTensor.rank4 [()], [0])]

/-- A constant stand-in for the abstract batch loss. -/
def tinyLF : List (List ℚ) → List ℕ → ℚ := fun _ _ => 0

/-- The outcome of `evaluate tinyNet tinyDL tinyLF true`. -/
def tinyOut : EvalOut :=
  { acc1 := 100, acc2 := 100, loss := 0, y_gt := [0], y_pred := [0] }

/-- A concrete environment wiring the fixture into `main`. -/
def tinyEnv : Env Unit :=
  { loadNet := fun _ _ => tinyNet, loss_fn := tinyLF,
    get_dataloaders := fun _ => (tinyDL, tinyDL, tinyDL) }

/-- `defaultArgs` with different values of the three unread flags. -/
def altArgs : Args :=
  { defaultArgs with batch_size := 1, seed := 42, data_path := "./elsewhere.csv" }

theorem foldl_max_one_two : List.foldl Nat.max 0 [1, 2] = 2 := rfl

theorem stepWithOutputs_eq_some {lf : List (List ℚ) → List ℕ → ℚ} {s : EvalState}
    {o : List (List ℚ)} {labels : List ℕ} {s₁ : EvalState}
    (h : stepWithOutputs lf s o labels = some s₁) :
    o.length = labels.length ∧ (∀ r ∈ o, 2 ≤ r.length) ∧
      s₁ = { loss_tr := s.loss_tr + lf o labels,
             n_samples := s.n_samples + labels.length,
             correct_count1 := s.correct_count1 + correctK (predRows 2 o) labels 1,
             correct_count2 := s.correct_count2 + correctK (predRows 2 o) labels 2,
             y_pred := s.y_pred ++ o.map argmaxFirst,
             y_gt := s.y_gt ++ labels } := by
  unfold stepWithOutputs correct_count at h
  rw [foldl_max_one_two] at h
  by_cases hg : o.length = labels.length ∧ ∀ r ∈ o, 2 ≤ r.length
  · rw [if_pos hg] at h
    simp only [List.map_cons, List.map_nil] at h
    exact ⟨hg.1, hg.2, (Option.some.inj h).symm⟩
  · rw [if_neg hg] at h
    simp at h

theorem evalStep_eq_some {α : Type} {ncrop : Bool} {net : α → List ℚ}
    {lf : List (List ℚ) → List ℕ → ℚ} {s : EvalState} {b : InTensor α × List ℕ}
    {s₁ : EvalState} (h : evalStep ncrop net lf s b = some s₁) :
    ∃ o, batchOutputs ncrop net b.1 = some o ∧ o.length = b.2.length ∧
      (∀ r ∈ o, 2 ≤ r.length) ∧
      s₁ = { loss_tr := s.loss_tr + lf o b.2,
             n_samples := s.n_samples + b.2.length,
             correct_count1 := s.correct_count1 + correctK (predRows 2 o) b.2 1,
             correct_count2 := s.correct_count2 + correctK (predRows 2 o) b.2 2,
             y_pred := s.y_pred ++ o.map argmaxFirst,
             y_gt := s.y_gt ++ b.2 } := by
  unfold evalStep at h
  cases hbo : batchOutputs ncrop net b.1 with
  | none => rw [hbo] at h; simp at h
  | some o =>
      rw [hbo] at h
      simp only [Option.some_bind] at h
      obtain ⟨h1, h2, h3⟩ := stepWithOutputs_eq_some h
      exact ⟨o, rfl, h1, h2, h3⟩

/-- Relation between one batch and its (successfully computed) output matrix.
The two side conditions are the ones `correct_count` enforces. -/
def batchOK {α : Type} (ncrop : Bool) (net : α → List ℚ)
    (b : InTensor α × List ℕ) (o : List (List ℚ)) : Prop :=
  batchOutputs ncrop net b.1 = some o ∧ o.length = b.2.length ∧ ∀ r ∈ o, 2 ≤ r.length

theorem evalFold_eq_some {α : Type} {ncrop : Bool} {net : α → List ℚ}
    {lf : List (List ℚ) → List ℕ → ℚ} :
    ∀ {dl : List (InTensor α × List ℕ)} {s s₁ : EvalState},
      evalFold ncrop net lf s dl = some s₁ →
      ∃ outs : List (List (List ℚ)),
        List.Forall₂ (batchOK ncrop net) dl outs ∧
        s₁.loss_tr = s.loss_tr + ((dl.zip outs).map (fun p => lf p.2 p.1.2)).sum ∧
        s₁.n_samples = s.n_samples + (dl.map (fun b => b.2.length)).sum ∧
        s₁.correct_count1 = s.correct_count1 +
          ((dl.zip outs).map (fun p => correctK (predRows 2 p.2) p.1.2 1)).sum ∧
        s₁.correct_count2 = s.correct_count2 +
          ((dl.zip outs).map (fun p => correctK (predRows 2 p.2) p.1.2 2)).sum ∧
        s₁.y_pred = s.y_pred ++ ((dl.zip outs).map (fun p => p.2.map argmaxFirst)).flatten ∧
        s₁.y_gt = s.y_gt ++ (dl.map (fun b => b.2)).flatten := by
  intro dl
  induction dl with
  | nil =>
      intro s s₁ h
      simp only [evalFold] at h
      refine ⟨[], List.Forall₂.nil, ?_⟩
      cases Option.some.inj h
      simp
  | cons b rest ih =>
      intro s s₁ h
      simp only [evalFold] at h
      cases hst : evalStep ncrop net lf s b with
      | none => rw [hst] at h; simp at h
      | some s₂ =>
          rw [hst] at h
          simp only [Option.some_bind] at h
          obtain ⟨o, hbo, hol, horow, hs₂⟩ := evalStep_eq_some hst
          obtain ⟨outs, hfa, hl, hn, hc1, hc2, hyp, hyg⟩ := ih h
          subst hs₂
          refine ⟨o :: outs, List.Forall₂.cons ⟨hbo, hol, horow⟩ hfa, ?_, ?_, ?_, ?_, ?_, ?_⟩
          · rw [hl]; simp [add_assoc]
          · rw [hn]; simp [Nat.add_assoc]
          · rw [hc1]; simp [Nat.add_assoc]
          · rw [hc2]; simp [Nat.add_assoc]
          · rw [hyp]; simp [List.append_assoc]
          · rw [hyg]; simp [List.append_assoc]

theorem evaluate_eq_some {α : Type} {net : α → List ℚ} {dl : List (InTensor α × List ℕ)}
    {lf : List (List ℚ) → List ℕ → ℚ} {ncrop : Bool} {r : EvalOut}
    (h : evaluate net dl lf ncrop = some r) :
    ∃ outs : List (List (List ℚ)),
      List.Forall₂ (batchOK ncrop net) dl outs ∧
      (dl.map (fun b => b.2.length)).sum ≠ 0 ∧
      r.acc1 = 100 * (((dl.zip outs).map (fun p => correctK (predRows 2 p.2) p.1.2 1)).sum : ℚ) /
        ((dl.map (fun b => b.2.length)).sum : ℚ) ∧
      r.acc2 = 100 * (((dl.zip outs).map (fun p => correctK (predRows 2 p.2) p.1.2 2)).sum : ℚ) /
        ((dl.map (fun b => b.2.length)).sum : ℚ) ∧
      r.loss = ((dl.zip outs).map (fun p => lf p.2 p.1.2)).sum /
        ((dl.map (fun b => b.2.length)).sum : ℚ) ∧
      r.y_gt = (dl.map (fun b => b.2)).flatten ∧
      r.y_pred = ((dl.zip outs).map (fun p => p.2.map argmaxFirst)).flatten := by
  unfold evaluate at h
  cases hf : evalFold ncrop net lf ⟨0, 0, 0, 0, [], []⟩ dl with
  | none => rw [hf] at h; simp at h
  | some s =>
      rw [hf] at h
      simp only [Option.some_bind] at h
      obtain ⟨outs, hfa, hl, hn, hc1, hc2, hyp, hyg⟩ := evalFold_eq_some hf
      by_cases hz : s.n_samples = 0
      · rw [if_pos hz] at h; simp at h
      · rw [if_neg hz] at h
        cases Option.some.inj h
        have hsum : (dl.map (fun b => b.2.length)).sum ≠ 0 := by
          intro hc; exact hz (by rw [hn, hc])
        refine ⟨outs, hfa, hsum, ?_, ?_, ?_, ?_, ?_⟩
        · rw [hc1, hn]; norm_num [Function.comp_def]
        · rw [hc2, hn]; norm_num [Function.comp_def]
        · rw [hl, hn]; norm_num [Function.comp_def]
        · rw [hyg]; simp
        · rw [hyp]; simp

theorem viewGroups_flatten {γ : Type} {n : ℕ} :
    ∀ yss : List (List γ), (∀ ys ∈ yss, ys.length = n) →
      viewGroups yss.length n yss.flatten = yss := by
  intro yss
  induction yss with
  | nil => intro _; simp [viewGroups]
  | cons ys yss ih =>
      intro h
      have hys : ys.length = n := h ys (by simp)
      have hrest : ∀ zs ∈ yss, zs.length = n := fun zs hz => h zs (by simp [hz])
      unfold viewGroups
      rw [List.length_cons, List.range_succ_eq_map, List.map_cons, List.map_map,
        List.flatten_cons]
      have hhead : (((ys ++ yss.flatten).drop (0 * n)).take n) = ys := by
        simp [List.take_left' hys]
      have htail : ∀ i ∈ List.range yss.length,
          ((fun i => ((ys ++ yss.flatten).drop (i * n)).take n) ∘ Nat.succ) i =
            (fun i => ((yss.flatten.drop (i * n)).take n)) i := by
        intro i _
        simp only [Function.comp]
        rw [Nat.succ_mul, Nat.add_comm, ← List.drop_drop, List.drop_left' hys]
      rw [hhead, List.map_congr_left htail]
      exact congrArg (List.cons ys) (ih hrest)

/-- On a rank-5 batch with the same crop count `C` in every row, the
flatten / forward / regroup / divide pipeline of lines 88-98 produces exactly
the per-sample equal-weight crop average. -/
theorem batchOutputs_rank5_avg {α : Type} {net : α → List ℚ}
    {imgss : List (List α)} {C : ℕ} (hu : ∀ crops ∈ imgss, crops.length = C) :
    batchOutputs true net (InTensor.rank5 imgss) =
      some (imgss.map (fun crops =>
        (sumVecs (crops.map net)).map (fun q => q / (C : ℚ)))) := by
  cases imgss with
  | nil => simp [batchOutputs, viewGroups]
  | cons cs rest =>
      have hnc : ncropsOf (cs :: rest) = C := by
        simpa [ncropsOf] using hu cs (by simp)
      have hlens : ∀ ys ∈ (cs :: rest).map (fun crops => crops.map net), ys.length = C := by
        intro ys hys
        obtain ⟨crops, hcrops, rfl⟩ := List.mem_map.mp hys
        simpa using hu crops hcrops
      have hflat : (cs :: rest).flatten.map net =
          ((cs :: rest).map (fun crops => crops.map net)).flatten := by
        simp [List.map_flatten]
      have hlen : (cs :: rest).length = ((cs :: rest).map (fun crops => crops.map net)).length := by
        simp
      simp only [batchOutputs, if_pos, hnc, hflat, hlen]
      rw [viewGroups_flatten _ hlens, List.map_map]
      rfl

theorem sumVecs_length {kc : ℕ} : ∀ {g : List (List ℚ)}, g ≠ [] →
    (∀ r ∈ g, r.length = kc) → (sumVecs g).length = kc := by
  intro g
  induction g with
  | nil => intro h; exact absurd rfl h
  | cons r rs ih =>
      intro _ hall
      cases rs with
      | nil => simpa [sumVecs] using hall r (by simp)
      | cons r₂ rs₂ =>
          rw [show sumVecs (r :: r₂ :: rs₂) = List.zipWith (· + ·) r (sumVecs (r₂ :: rs₂))
            from rfl]
          rw [List.length_zipWith, hall r (by simp),
            ih (by simp) (fun z hz => hall z (by simp [hz]))]
          exact Nat.min_self kc

/-- Every nonempty output row has the net's class count as its length; the
crop-averaging path preserves it because an elementwise sum of rows of equal
length keeps that length. -/
theorem batchOutputs_row_length {α : Type} {ncrop : Bool} {net : α → List ℚ}
    {t : InTensor α} {o : List (List ℚ)} {kc : ℕ}
    (h : batchOutputs ncrop net t = some o) (hk : ∀ x, (net x).length = kc) :
    ∀ row ∈ o, row ≠ [] → row.length = kc := by
  cases t with
  | rank4 imgs =>
      cases ncrop with
      | true => simp [batchOutputs] at h
      | false =>
          have h₂ : some (imgs.map net) = some o := h
          cases Option.some.inj h₂
          intro row hrow _
          obtain ⟨x, _, rfl⟩ := List.mem_map.mp hrow
          exact hk x
  | rank5 imgss =>
      cases ncrop with
      | false => simp [batchOutputs] at h
      | true =>
          have h₂ : some ((viewGroups imgss.length (ncropsOf imgss)
              (imgss.flatten.map net)).map
              (fun g => (sumVecs g).map (fun q => q / ((ncropsOf imgss : ℚ))))) = some o := h
          cases Option.some.inj h₂
          intro row hrow hne
          obtain ⟨g, hg, rfl⟩ := List.mem_map.mp hrow
          have hgne : g ≠ [] := by
            intro h0
            subst h0
            simp [sumVecs] at hne
          have hmem : ∀ r ∈ g, r.length = kc := by
            intro r hr
            obtain ⟨i, _, rfl⟩ := List.mem_map.mp hg
            have hr₂ : r ∈ imgss.flatten.map net :=
              List.drop_subset _ _ (List.take_subset _ _ hr)
            obtain ⟨x, _, rfl⟩ := List.mem_map.mp hr₂
            exact hk x
          rw [List.length_map]
          exact sumVecs_length hgne hmem

theorem argmaxGo_lt : ∀ (xs : List ℚ) (i bi : ℕ) (bv : ℚ), bi < i →
    argmaxGo i bi bv xs < i + xs.length := by
  intro xs
  induction xs with
  | nil => intro i bi bv h; simpa [argmaxGo] using h
  | cons x xs ih =>
      intro i bi bv h
      simp only [argmaxGo, List.length_cons]
      by_cases hx : bv < x
      · rw [if_pos hx]
        have := ih (i + 1) i x (Nat.lt_succ_self i)
        omega
      · rw [if_neg hx]
        have := ih (i + 1) bi bv (Nat.lt_succ_of_lt h)
        omega

theorem argmaxFirst_lt {row : List ℚ} (h : row ≠ []) : argmaxFirst row < row.length := by
  cases row with
  | nil => exact absurd rfl h
  | cons x xs =>
      have h₁ := argmaxGo_lt xs 1 0 x Nat.one_pos
      simp only [argmaxFirst, List.length_cons]
      omega

theorem correctK_le {pred : List (List ℕ)} {target : List ℕ} {k k₂ : ℕ} (hk : k ≤ k₂) :
    correctK pred target k ≤ correctK pred target k₂ := by
  unfold correctK
  apply List.sum_le_sum
  intro pt _
  apply List.Sublist.length_le
  apply List.Sublist.filter
  have : pt.1.take k = (pt.1.take k₂).take k := by
    rw [List.take_take, Nat.min_eq_left hk]
  rw [this]
  exact List.take_sublist _ _

theorem forall₂_zip_length_sum {α : Type} {ncrop : Bool} {net : α → List ℚ} :
    ∀ {dl : List (InTensor α × List ℕ)} {outs : List (List (List ℚ))},
      List.Forall₂ (batchOK ncrop net) dl outs →
      ((dl.zip outs).map (fun p => p.2.length)).sum = (dl.map (fun b => b.2.length)).sum := by
  intro dl outs h
  induction h with
  | nil => rfl
  | cons hbo _ ih => simp [hbo.2.1, ih]

theorem evalFold_none_of_failing {α : Type} {ncrop : Bool} {net : α → List ℚ}
    {lf : List (List ℚ) → List ℕ → ℚ} {b : InTensor α × List ℕ}
    (hfail : batchOutputs ncrop net b.1 = none) :
    ∀ {dl : List (InTensor α × List ℕ)}, b ∈ dl → ∀ s, evalFold ncrop net lf s dl = none := by
  intro dl
  induction dl with
  | nil => intro hb; cases hb
  | cons b₀ rest ih =>
      intro hb s
      rcases List.mem_cons.mp hb with h | h
      · subst h
        simp [evalFold, evalStep, hfail]
      · simp only [evalFold]
        cases hst : evalStep ncrop net lf s b₀ with
        | none => rfl
        | some s₁ => simp [ih h s₁]

theorem zip_fst_surj : ∀ {l₁ l₂ : List ℕ}, l₁.length = l₂.length →
    ∀ c ∈ l₁, ∃ d, (c, d) ∈ l₁.zip l₂ := by
  intro l₁
  induction l₁ with
  | nil => intro l₂ _ c hc; cases hc
  | cons a l₁ ih =>
      intro l₂ hlen c hc
      cases l₂ with
      | nil => simp at hlen
      | cons b l₂ =>
          rcases List.mem_cons.mp hc with rfl | hc
          · exact ⟨b, by simp⟩
          · obtain ⟨d, hd⟩ := ih (by simpa using hlen) c hc
            exact ⟨d, by simp [hd]⟩

theorem map_div_sum (row : List ℕ) (s : ℚ) :
    (row.map (fun x : ℕ => (x : ℚ) / s)).sum = ((row.sum : ℚ)) / s := by
  induction row with
  | nil => simp
  | cons x xs ih =>
      rw [List.map_cons, List.sum_cons, ih, List.sum_cons, Nat.cast_add, add_div]

theorem mem_cmLabels {y_true y_pred : List ℕ} {d : ℕ} (hd : d ∈ y_true ++ y_pred) :
    d ∈ cmLabels y_true y_pred := by
  unfold cmLabels
  rw [List.Perm.mem_iff (List.perm_insertionSort _ _)]
  exact List.mem_dedup.mpr hd

theorem tinyBatch_outputs : batchOutputs true tinyNet (InTensor.rank5 [[()]]) = some [[1, 0]] := by
  norm_num [batchOutputs, tinyNet, viewGroups, ncropsOf, sumVecs, List.range_succ]

theorem tiny_correct : correct_count [[(1 : ℚ), 0]] [0] [1, 2] = some [1, 1] := by decide

theorem tiny_step : evalStep true tinyNet tinyLF ⟨0, 0, 0, 0, [], []⟩
    (InTensor.rank5 [[()]], [0]) = some ⟨0, 1, 1, 1, [0], [0]⟩ := by
  unfold evalStep
  rw [show (InTensor.rank5 [[()]], ([0] : List ℕ)).1 = InTensor.rank5 [[()]] from rfl,
    tinyBatch_outputs]
  simp only [Option.some_bind]
  unfold stepWithOutputs
  rw [tiny_correct]
  norm_num [tinyLF, argmaxFirst, argmaxGo]

theorem tiny_eval : evaluate tinyNet tinyDL tinyLF true = some tinyOut := by
  unfold evaluate tinyDL
  rw [show evalFold true tinyNet tinyLF ⟨0, 0, 0, 0, [], []⟩ [(InTensor.rank5 [[()]], [0])] =
      (evalStep true tinyNet tinyLF ⟨0, 0, 0, 0, [], []⟩ (InTensor.rank5 [[()]], [0])).bind
      (fun s₁ => evalFold true tinyNet tinyLF s₁ []) from rfl]
  rw [tiny_step]
  simp only [Option.some_bind]
  rw [show evalFold true tinyNet tinyLF ⟨0, 1, 1, 1, [0], [0]⟩ [] =
      some ⟨0, 1, 1, 1, [0], [0]⟩ from rfl]
  norm_num [tinyOut]

/-- C1: with the augmentation flag enabled, a batch whose input tensor has
shape `[bs, C, c, h, w]` (the same crop count `C` in every row) is flattened
into one batch of `bs * C` crop images, the model runs once, the outputs are
regrouped per sample, and the outputs the loop then hands to the loss, top-k
and argmax computations are exactly the equal-weight crop averages: the
elementwise sum of the `C` score rows divided by `C`. -/
theorem ncrop_eval_uses_crop_averages {α : Type} {net : α → List ℚ}
    {imgss : List (List α)} {C : ℕ} (_hC : 0 < C)
    (hu : ∀ crops ∈ imgss, crops.length = C) :
    batchOutputs true net (InTensor.rank5 imgss) =
      some (imgss.map (fun crops =>
        (sumVecs (crops.map net)).map (fun q => q / (C : ℚ)))) ∧
    ∀ (lf : List (List ℚ) → List ℕ → ℚ) (s : EvalState) (labels : List ℕ),
      evalStep true net lf s (InTensor.rank5 imgss, labels) =
        stepWithOutputs lf s (imgss.map (fun crops =>
          (sumVecs (crops.map net)).map (fun q => q / (C : ℚ)))) labels := by
  have key := @batchOutputs_rank5_avg _ net imgss C hu
  refine ⟨key, fun lf s labels => ?_⟩
  unfold evalStep
  rw [show (InTensor.rank5 imgss, labels).1 = InTensor.rank5 imgss from rfl, key]
  rfl

theorem ncrop_eval_uses_crop_averages_witness :
    batchOutputs true tinyNet (InTensor.rank5 [[()]]) =
      some ([[()]].map (fun crops =>
        (sumVecs (crops.map tinyNet)).map (fun q => q / ((1 : ℕ) : ℚ)))) ∧
    ∀ (lf : List (List ℚ) → List ℕ → ℚ) (s : EvalState) (labels : List ℕ),
      evalStep true tinyNet lf s (InTensor.rank5 [[()]], labels) =
        stepWithOutputs lf s ([[()]].map (fun crops =>
          (sumVecs (crops.map tinyNet)).map (fun q => q / ((1 : ℕ) : ℚ)))) labels :=
  ncrop_eval_uses_crop_averages Nat.one_pos (by decide)

/-- C2: whenever a split evaluates successfully (so its sample count is
positive), the printed mean loss is the sum of the per-batch mean losses
divided by the total sample count, and the printed accuracies are
`100 * correct_k / total_samples` for k = 1, 2, where `correct_k` sums the
per-batch top-k correct counts. -/
theorem final_metrics_formulas {α : Type} {net : α → List ℚ}
    {dl : List (InTensor α × List ℕ)} {lf : List (List ℚ) → List ℕ → ℚ}
    {ncrop : Bool} {r : EvalOut} (h : evaluate net dl lf ncrop = some r) :
    ∃ outs : List (List (List ℚ)),
      List.Forall₂ (batchOK ncrop net) dl outs ∧
      0 < (dl.map (fun b => b.2.length)).sum ∧
      r.loss = ((dl.zip outs).map (fun p => lf p.2 p.1.2)).sum /
        ((dl.map (fun b => b.2.length)).sum : ℚ) ∧
      r.acc1 = 100 * (((dl.zip outs).map
        (fun p => correctK (predRows 2 p.2) p.1.2 1)).sum : ℚ) /
        ((dl.map (fun b => b.2.length)).sum : ℚ) ∧
      r.acc2 = 100 * (((dl.zip outs).map
        (fun p => correctK (predRows 2 p.2) p.1.2 2)).sum : ℚ) /
        ((dl.map (fun b => b.2.length)).sum : ℚ) := by
  obtain ⟨outs, hfa, hN, ha1, ha2, hls, _, _⟩ := evaluate_eq_some h
  exact ⟨outs, hfa, Nat.pos_of_ne_zero hN, hls, ha1, ha2⟩

theorem final_metrics_formulas_witness :
    ∃ outs : List (List (List ℚ)),
      List.Forall₂ (batchOK true tinyNet) tinyDL outs ∧
      0 < (tinyDL.map (fun b => b.2.length)).sum ∧
      tinyOut.loss = ((tinyDL.zip outs).map (fun p => tinyLF p.2 p.1.2)).sum /
        ((tinyDL.map (fun b => b.2.length)).sum : ℚ) ∧
      tinyOut.acc1 = 100 * (((tinyDL.zip outs).map
        (fun p => correctK (predRows 2 p.2) p.1.2 1)).sum : ℚ) /
        ((tinyDL.map (fun b => b.2.length)).sum : ℚ) ∧
      tinyOut.acc2 = 100 * (((tinyDL.zip outs).map
        (fun p => correctK (predRows 2 p.2) p.1.2 2)).sum : ℚ) /
        ((tinyDL.map (fun b => b.2.length)).sum : ℚ) :=
  final_metrics_formulas tiny_eval

/-- C3: on every successfully evaluated split the printed top-1 accuracy is at
most the top-2 accuracy: per sample, the top-1 hit count over the prediction
list is the count over a prefix of the list the top-2 count uses. -/
theorem top1_le_top2 {α : Type} {net : α → List ℚ} {dl : List (InTensor α × List ℕ)}
    {lf : List (List ℚ) → List ℕ → ℚ} {ncrop : Bool} {r : EvalOut}
    (h : evaluate net dl lf ncrop = some r) : r.acc1 ≤ r.acc2 := by
  obtain ⟨outs, hfa, hN, ha1, ha2, _, _, _⟩ := evaluate_eq_some h
  rw [ha1, ha2]
  have hle : ((dl.zip outs).map (fun p => correctK (predRows 2 p.2) p.1.2 1)).sum ≤
      ((dl.zip outs).map (fun p => correctK (predRows 2 p.2) p.1.2 2)).sum :=
    List.sum_le_sum (fun p _ => correctK_le (by norm_num))
  have hnn : (0 : ℚ) ≤ (dl.map (fun b => ((b.2.length : ℕ) : ℚ))).sum := by
    apply List.sum_nonneg
    intro x hx
    obtain ⟨b, _, rfl⟩ := List.mem_map.mp hx
    positivity
  exact div_le_div_of_nonneg_right
    (mul_le_mul_of_nonneg_left (by exact_mod_cast hle) (by norm_num)) hnn

theorem top1_le_top2_witness : tinyOut.acc1 ≤ tinyOut.acc2 :=
  top1_le_top2 tiny_eval

/-- C4: a successful `evaluate` returns ground truth first and predictions
second, both of length equal to the split's sample count, built one entry per
sample in iteration order; the ground-truth sequence is the concatenation of
the label batches (so lies in `[0, kc)` when the labels do), and the predicted
sequence concatenates the per-batch argmaxes of the crop-averaged scores (so
lies in `[0, kc)` when the net scores `kc` classes). -/
theorem returned_sequences {α : Type} {net : α → List ℚ}
    {dl : List (InTensor α × List ℕ)} {lf : List (List ℚ) → List ℕ → ℚ}
    {ncrop : Bool} {r : EvalOut} {kc : ℕ} (h : evaluate net dl lf ncrop = some r)
    (hk : ∀ x, (net x).length = kc) (hl : ∀ b ∈ dl, ∀ y ∈ b.2, y < kc) :
    r.y_gt = (dl.map (fun b => b.2)).flatten ∧
    r.y_gt.length = (dl.map (fun b => b.2.length)).sum ∧
    r.y_pred.length = (dl.map (fun b => b.2.length)).sum ∧
    (∀ y ∈ r.y_gt, y < kc) ∧ (∀ y ∈ r.y_pred, y < kc) ∧
    ∃ outs : List (List (List ℚ)), List.Forall₂ (batchOK ncrop net) dl outs ∧
      r.y_pred = ((dl.zip outs).map (fun p => p.2.map argmaxFirst)).flatten := by
  obtain ⟨outs, hfa, hN, _, _, _, hyg, hyp⟩ := evaluate_eq_some h
  have hyglen : r.y_gt.length = (dl.map (fun b => b.2.length)).sum := by
    rw [hyg, List.length_flatten, List.map_map]
    exact congrArg List.sum (List.map_congr_left (fun b _ => rfl))
  have hyplen : r.y_pred.length = (dl.map (fun b => b.2.length)).sum := by
    rw [hyp, List.length_flatten, List.map_map]
    have hpt : ∀ p ∈ dl.zip outs,
        (List.length ∘ fun p : (InTensor α × List ℕ) × List (List ℚ) =>
          p.2.map argmaxFirst) p = p.2.length := by
      intro p _
      simp
    rw [List.map_congr_left hpt]
    exact forall₂_zip_length_sum hfa
  have hygval : ∀ y ∈ r.y_gt, y < kc := by
    rw [hyg]
    intro y hy
    obtain ⟨chunk, hchunk, hy⟩ := List.mem_flatten.mp hy
    obtain ⟨b, hb, rfl⟩ := List.mem_map.mp hchunk
    exact hl b hb y hy
  have hypval : ∀ y ∈ r.y_pred, y < kc := by
    rw [hyp]
    intro y hy
    obtain ⟨chunk, hchunk, hy⟩ := List.mem_flatten.mp hy
    obtain ⟨p, hp, rfl⟩ := List.mem_map.mp hchunk
    obtain ⟨row, hrow, rfl⟩ := List.mem_map.mp hy
    have hOK : batchOK ncrop net p.1 p.2 :=
      (List.forall₂_iff_zip.mp hfa).2 (by simpa using hp)
    have hne : row ≠ [] := by
      have h2 := hOK.2.2 row hrow
      intro h0
      rw [h0] at h2
      simp at h2
    have hlen := batchOutputs_row_length hOK.1 hk row hrow hne
    rw [← hlen]
    exact argmaxFirst_lt hne
  exact ⟨hyg, hyglen, hyplen, hygval, hypval, outs, hfa, hyp⟩

theorem returned_sequences_witness :
    tinyOut.y_gt = (tinyDL.map (fun b => b.2)).flatten ∧
    tinyOut.y_gt.length = (tinyDL.map (fun b => b.2.length)).sum ∧
    tinyOut.y_pred.length = (tinyDL.map (fun b => b.2.length)).sum ∧
    (∀ y ∈ tinyOut.y_gt, y < 2) ∧ (∀ y ∈ tinyOut.y_pred, y < 2) ∧
    ∃ outs : List (List (List ℚ)), List.Forall₂ (batchOK true tinyNet) tinyDL outs ∧
      tinyOut.y_pred = ((tinyDL.zip outs).map (fun p => p.2.map argmaxFirst)).flatten :=
  returned_sequences tiny_eval (fun _ => rfl) (by decide)

/-- C5: with exactly one crop per sample (`n_crops = 1`) the augmentation
path — flatten, forward, regroup, divide by one — produces the same output
scores as the plain forward pass of the no-augmentation path on the same
images. -/
theorem single_crop_matches_plain {α : Type} (net : α → List ℚ) (xs : List α)
    (_hne : xs ≠ []) :
    batchOutputs true net (InTensor.rank5 (xs.map (fun x => [x]))) =
      batchOutputs false net (InTensor.rank4 xs) := by
  have h1 : ∀ crops ∈ xs.map (fun x : α => [x]), crops.length = 1 := by
    intro crops hc
    obtain ⟨x, _, rfl⟩ := List.mem_map.mp hc
    rfl
  rw [batchOutputs_rank5_avg h1]
  rw [show batchOutputs false net (InTensor.rank4 xs) = some (xs.map net) from rfl]
  rw [List.map_map]
  refine congrArg some (List.map_congr_left ?_)
  intro x _
  simp [sumVecs, Function.comp]

theorem single_crop_matches_plain_witness :
    batchOutputs true tinyNet (InTensor.rank5 ([()].map (fun x => [x]))) =
      batchOutputs false tinyNet (InTensor.rank4 [()]) :=
  single_crop_matches_plain tinyNet [()] (by decide)

/-- C6: in the renderer's row-normalized confusion matrix, every row belongs
to a label present in the data; a row whose true class occurs in the split
sums to exactly 1, and the row of a class that never occurs as a true label
(it only exists when predicted) is zero-filled, sklearn's `nan_to_num`
replacing its 0/0 entries. -/
theorem cm_rows_normalized {y_true y_pred : List ℕ}
    (hlen : y_true.length = y_pred.length) :
    ∀ row ∈ confusion_matrix_normalized y_true y_pred,
      ∃ c ∈ cmLabels y_true y_pred, row = cmNormRow y_true y_pred c ∧
        (c ∈ y_true → row.sum = 1) ∧ (c ∉ y_true → ∀ q ∈ row, q = 0) := by
  intro row hrow
  obtain ⟨c, hc, rfl⟩ := List.mem_map.mp hrow
  refine ⟨c, hc, rfl, ?_, ?_⟩
  · intro hcyt
    obtain ⟨d, hd⟩ := zip_fst_surj hlen c hcyt
    have hdy : d ∈ y_pred := (List.of_mem_zip hd).2
    have hdmem : d ∈ cmLabels y_true y_pred := mem_cmLabels (by simp [hdy])
    have hcd : (c, d) ∈ (y_true.zip y_pred).filter
        (fun p => decide (p.1 = c ∧ p.2 = d)) :=
      List.mem_filter.mpr ⟨hd, by simp⟩
    have hcnt : 0 < ((y_true.zip y_pred).filter
        (fun p => decide (p.1 = c ∧ p.2 = d))).length :=
      List.length_pos.mpr (List.ne_nil_of_mem hcd)
    have hentry : ((y_true.zip y_pred).filter
        (fun p => decide (p.1 = c ∧ p.2 = d))).length ∈
          cmRow (y_true.zip y_pred) (cmLabels y_true y_pred) c :=
      List.mem_map_of_mem _ hdmem
    have hpos : 0 < (cmRow (y_true.zip y_pred) (cmLabels y_true y_pred) c).sum :=
      lt_of_lt_of_le hcnt (List.single_le_sum (fun _ _ => Nat.zero_le _) _ hentry)
    simp only [cmNormRow]
    rw [if_neg (Nat.pos_iff_ne_zero.mp hpos)]
    rw [map_div_sum]
    exact div_self (by exact_mod_cast Nat.pos_iff_ne_zero.mp hpos)
  · intro hcno
    have hall : ∀ e ∈ cmRow (y_true.zip y_pred) (cmLabels y_true y_pred) c, e = 0 := by
      intro e he
      obtain ⟨d, _, rfl⟩ := List.mem_map.mp he
      rw [List.length_eq_zero]
      apply List.filter_eq_nil_iff.mpr
      intro p hp
      simp only [decide_eq_true_eq, not_and]
      intro h1 _
      exact absurd (h1 ▸ (List.of_mem_zip hp).1) hcno
    have hsum0 : (cmRow (y_true.zip y_pred) (cmLabels y_true y_pred) c).sum = 0 :=
      List.sum_eq_zero hall
    simp only [cmNormRow]
    rw [if_pos hsum0]
    intro q hq
    obtain ⟨_, _, rfl⟩ := List.mem_map.mp hq
    rfl

theorem cm_rows_normalized_witness :
    ∃ c ∈ cmLabels [0, 1] [0, 1],
      cmNormRow [0, 1] [0, 1] 0 = cmNormRow [0, 1] [0, 1] c ∧
        (c ∈ [0, 1] → (cmNormRow [0, 1] [0, 1] 0).sum = 1) ∧
        (c ∉ [0, 1] → ∀ q ∈ cmNormRow [0, 1] [0, 1] 0, q = 0) :=
  cm_rows_normalized rfl (cmNormRow [0, 1] [0, 1] 0)
    (List.mem_map_of_mem _ (by decide))

/-- C7: `evaluate` has no error handling; on a split whose total sample count
is zero the final aggregation divides by zero, the error propagates to the
caller, and no metrics or label sequences are produced. -/
theorem evaluate_none_on_empty_split {α : Type} {net : α → List ℚ}
    {dl : List (InTensor α × List ℕ)} {lf : List (List ℚ) → List ℕ → ℚ}
    {ncrop : Bool} (h : (dl.map (fun b => b.2.length)).sum = 0) :
    evaluate net dl lf ncrop = none := by
  unfold evaluate
  cases hf : evalFold ncrop net lf ⟨0, 0, 0, 0, [], []⟩ dl with
  | none => rfl
  | some s =>
      obtain ⟨outs, _, _, hn, _⟩ := evalFold_eq_some hf
      have hz : s.n_samples = 0 := by
        rw [hn, h]
      simp [Option.some_bind, hz]

theorem evaluate_none_on_empty_split_witness :
    evaluate tinyNet ([] : List (InTensor Unit × List ℕ)) tinyLF true = none :=
  evaluate_none_on_empty_split rfl

/-- C8: the orchestrator evaluates train, validation and test strictly in that
order, prints the labeled header before each, clears the shared figure
between successive renders, and saves exactly three heat-map images with the
three fixed file names, each at 300 dpi. -/
theorem main_trace {α : Type} (env : Env α) (args : Args) (r₁ r₂ r₃ : EvalOut)
    (h₁ : evaluate (env.loadNet args.arch args.checkpoint) (env.get_dataloaders false).1
      env.loss_fn args.Ncrop = some r₁)
    (h₂ : evaluate (env.loadNet args.arch args.checkpoint) (env.get_dataloaders false).2.1
      env.loss_fn args.Ncrop = some r₂)
    (h₃ : evaluate (env.loadNet args.arch args.checkpoint) (env.get_dataloaders false).2.2
      env.loss_fn args.Ncrop = some r₃) :
    main env args =
      ([Event.printModel args.arch,
        Event.header "Train",
        Event.metricsBlock r₁.acc1 r₁.acc2 r₁.loss r₁.y_gt r₁.y_pred,
        Event.imshow (confusion_matrix_normalized r₁.y_gt r₁.y_pred)
          "Confusion Matrix on Training Set" labelNamesMain,
        Event.savefig "Confusion Matrix on Training Set.png" 300,
        Event.clearFigure,
        Event.header "Val",
        Event.metricsBlock r₂.acc1 r₂.acc2 r₂.loss r₂.y_gt r₂.y_pred,
        Event.imshow (confusion_matrix_normalized r₂.y_gt r₂.y_pred)
          "Confusion Matrix on Val Set" labelNamesMain,
        Event.savefig "Confusion Matrix on Val Set.png" 300,
        Event.clearFigure,
        Event.header "Test",
        Event.metricsBlock r₃.acc1 r₃.acc2 r₃.loss r₃.y_gt r₃.y_pred,
        Event.imshow (confusion_matrix_normalized r₃.y_gt r₃.y_pred)
          "Confusion Matrix on Test Set" labelNamesMain,
        Event.savefig "Confusion Matrix on Test Set.png" 300], true) := by
  simp only [main]
  rw [h₁, h₂, h₃]
  simp [draw_confusion_matrix]

theorem main_trace_witness :
    main tinyEnv defaultArgs =
      ([Event.printModel defaultArgs.arch,
        Event.header "Train",
        Event.metricsBlock tinyOut.acc1 tinyOut.acc2 tinyOut.loss tinyOut.y_gt tinyOut.y_pred,
        Event.imshow (confusion_matrix_normalized tinyOut.y_gt tinyOut.y_pred)
          "Confusion Matrix on Training Set" labelNamesMain,
        Event.savefig "Confusion Matrix on Training Set.png" 300,
        Event.clearFigure,
        Event.header "Val",
        Event.metricsBlock tinyOut.acc1 tinyOut.acc2 tinyOut.loss tinyOut.y_gt tinyOut.y_pred,
        Event.imshow (confusion_matrix_normalized tinyOut.y_gt tinyOut.y_pred)
          "Confusion Matrix on Val Set" labelNamesMain,
        Event.savefig "Confusion Matrix on Val Set.png" 300,
        Event.clearFigure,
        Event.header "Test",
        Event.metricsBlock tinyOut.acc1 tinyOut.acc2 tinyOut.loss tinyOut.y_gt tinyOut.y_pred,
        Event.imshow (confusion_matrix_normalized tinyOut.y_gt tinyOut.y_pred)
          "Confusion Matrix on Test Set" labelNamesMain,
        Event.savefig "Confusion Matrix on Test Set.png" 300], true) :=
  main_trace tinyEnv defaultArgs tinyOut tinyOut tinyOut tiny_eval tiny_eval tiny_eval

/-- C9: two runs that differ only in `--batch_size`, `--seed` or
`--data_path` behave identically: `main` reads only the architecture, the
checkpoint path and the `Ncrop` flag from its arguments, and builds the
dataloaders with `augment=False` alone. -/
theorem unread_flags_noninterference {α : Type} (env : Env α) (a₁ a₂ : Args)
    (harch : a₁.arch = a₂.arch) (hck : a₁.checkpoint = a₂.checkpoint)
    (hnc : a₁.Ncrop = a₂.Ncrop) :
    main env a₁ = main env a₂ := by
  unfold main
  rw [harch, hck, hnc]

theorem unread_flags_noninterference_witness :
    main tinyEnv defaultArgs = main tinyEnv altArgs :=
  unread_flags_noninterference tinyEnv defaultArgs altArgs rfl rfl rfl

/-- C10: with `Ncrop` true (its parser default), a batch whose input tensor
is not rank 5 makes the five-way shape unpacking fail and the whole
`evaluate` run abort; `main` leaves `Ncrop` at that default while building
its dataloaders with `augment=False` only — its behaviour depends on the
loaders exclusively through their augmentation-free variant. -/
theorem ncrop_requires_rank5 {α : Type} {net : α → List ℚ}
    {lf : List (List ℚ) → List ℕ → ℚ} {dl : List (InTensor α × List ℕ)}
    {b : InTensor α × List ℕ} (hb : b ∈ dl)
    (h4 : ∀ imgss : List (List α), b.1 ≠ InTensor.rank5 imgss) :
    batchOutputs true net b.1 = none ∧ evaluate net dl lf true = none ∧
      defaultArgs.Ncrop = true ∧
      ∀ env env₂ : Env α, env.loadNet = env₂.loadNet → env.loss_fn = env₂.loss_fn →
        env.get_dataloaders false = env₂.get_dataloaders false →
        main env defaultArgs = main env₂ defaultArgs := by
  have hfail : batchOutputs true net b.1 = none := by
    cases hbt : b.1 with
    | rank4 imgs => simp [batchOutputs]
    | rank5 imgss => exact absurd hbt (h4 imgss)
  refine ⟨hfail, ?_, rfl, ?_⟩
  · unfold evaluate
    rw [evalFold_none_of_failing hfail hb ⟨0, 0, 0, 0, [], []⟩]
    rfl
  · intro env env₂ he₁ he₂ he₃
    unfold main
    rw [he₁, he₂, he₃]

theorem ncrop_requires_rank5_witness :
    batchOutputs true tinyNet (InTensor.rank4 [()], ([0] : List ℕ)).1 = none ∧
    evaluate tinyNet tinyDL4 tinyLF true = none ∧
    defaultArgs.Ncrop = true ∧
    ∀ env env₂ : Env Unit, env.loadNet = env₂.loadNet → env.loss_fn = env₂.loss_fn →
      env.get_dataloaders false = env₂.get_dataloaders false →
      main env defaultArgs = main env₂ defaultArgs :=
  ncrop_requires_rank5 (List.mem_singleton.mpr rfl)
    (fun _ h => InTensor.noConfusion h)

end FaceEmotion
